import Mathlib

/-!
Verification of the reconciliation / listing / comparison core of the
sf-org-diff repository against its specification.

The JavaScript source is shallowly embedded: JS objects become structures
with `Option` fields (`none` models `undefined`), the JS `Map` becomes an
association list with insertion-order semantics, `||` on possibly-undefined
strings becomes `jsOrStr`, and fallible asynchronous calls become explicit
`Except` oracle inputs.  Functions are translated statement by statement
from `public/js/treeView.js` and the Salesforce service module.
-/

namespace SfOrgDiff

/-- Models the JS expression `a || b` on string values that may be
`undefined`: an `undefined` or empty string on the left selects `b`. -/
def jsOrStr : Option String → Option String → Option String
  | some s, b => if s = "" then b else some s
  | none, b => b

/-- JS truthiness of a string value that may be `undefined`:
`undefined` and the empty string are falsy. -/
def jsStrTruthy : Option String → Bool
  | some s => s ≠ ""
  | none => false

/-- Bool test whether `pat` is an initial segment of `s`
(character lists). -/
def leadsWith : List Char → List Char → Bool
  | _, [] => true
  | [], _ :: _ => false
  | c :: cs, p :: ps => c = p && leadsWith cs ps

/-- Bool test whether `pat` occurs contiguously inside `s`
(character lists). -/
def hasSub : List Char → List Char → Bool
  | [], pat => pat.isEmpty
  | c :: rest, pat => leadsWith (c :: rest) pat || hasSub rest pat

/-- Models `String.prototype.includes`: substring containment. -/
def strContains (s pat : String) : Bool :=
  hasSub s.data pat.data

/-! ### The entry data model (`component` objects of `treeView.js`) -/

/-- A raw listed component as handled by `TreeView.unionComponents`:
the fields the function reads, each possibly `undefined`. -/
structure Component where
  fullName : Option String := none
  name : Option String := none
  fileName : Option String := none
  lengthWithoutComments : Option Int := none
deriving Repr, DecidableEq

/-- `component.fullName || component.name || component.fileName`,
the union key of `TreeView.unionComponents`. -/
def keyOf (c : Component) : Option String :=
  jsOrStr c.fullName (jsOrStr c.name c.fileName)

/-- The loop guard `if (key)` of `unionComponents`: the union key when it
is JS-truthy (defined and nonempty); a falsy key (`undefined` or the
empty string) makes the loops skip the component. -/
def truthyKey (c : Component) : Option String :=
  match keyOf c with
  | some k => if k = "" then none else some k
  | none => none

/-- The annotated entry `unionComponents` stores in its map: the spread of
the source component plus the five fields the function adds. -/
structure MergedComponent where
  base : Component
  inOrgA : Bool
  inOrgB : Bool
  hasDifferences : Bool
  lengthWithoutCommentsA : Option Int
  lengthWithoutCommentsB : Option Int
deriving Repr, DecidableEq

/-- The union key of a merged entry, with the `|| ''` fallback used by the
sort comparator of `unionComponents`. -/
def mergedName (m : MergedComponent) : String :=
  (jsOrStr m.base.fullName (jsOrStr m.base.name m.base.fileName)).getD ""

/-! ### JS `Map` as an insertion-ordered association list -/

/-- `Map.prototype.get`: value of the (unique) entry with the given key. -/
def mapGet {α : Type} : List (String × α) → String → Option α
  | [], _ => none
  | p :: ps, k => if p.1 = k then some p.2 else mapGet ps k

/-- `Map.prototype.set`: overwrite in place, or append a new entry. -/
def mapSet {α : Type} : List (String × α) → String → α → List (String × α)
  | [], k, v => [(k, v)]
  | p :: ps, k, v => if p.1 = k then (k, v) :: ps else p :: mapSet ps k v

/-! ### `TreeView.unionComponents` (the effective, fingerprint-aware
definition at `treeView.js:1089`; a later class method of the same name
overrides the earlier one at line 248) -/

/-- The annotated entry built in the org-A loop of `unionComponents`,
given the counterpart found in the org-B map (if any). -/
def mergeFromA (c : Component) (orgBComponent : Option Component) :
    MergedComponent :=
  let inBothOrgs := orgBComponent.isSome
  let hasDifferences :=
    match orgBComponent with
    | some b =>
      match c.lengthWithoutComments, b.lengthWithoutComments with
      | some la, some lb => decide (la ≠ lb)
      | _, _ => false
    | none => false
  { base := c
    inOrgA := true
    inOrgB := inBothOrgs
    hasDifferences := hasDifferences
    lengthWithoutCommentsA := c.lengthWithoutComments
    lengthWithoutCommentsB := orgBComponent.bind (·.lengthWithoutComments) }

/-- The annotated entry built in the org-B loop of `unionComponents` for a
key not already present. -/
def mergeFromB (c : Component) : MergedComponent :=
  { base := c
    inOrgA := false
    inOrgB := true
    hasDifferences := false
    lengthWithoutCommentsA := none
    lengthWithoutCommentsB := c.lengthWithoutComments }

/-- One step of the loop building `orgBMap`, guarded by `if (key)`. -/
def stepOrgB (m : List (String × Component)) (c : Component) :
    List (String × Component) :=
  match truthyKey c with
  | some k => mapSet m k c
  | none => m

/-- `orgBMap`: lookup map from key to org-B component. -/
def buildOrgBMap (componentsB : List Component) :
    List (String × Component) :=
  componentsB.foldl stepOrgB []

/-- One step of the org-A loop of `unionComponents`, guarded by
`if (key)`. -/
def stepA (orgBMap : List (String × Component))
    (m : List (String × MergedComponent)) (c : Component) :
    List (String × MergedComponent) :=
  match truthyKey c with
  | some k => mapSet m k (mergeFromA c (mapGet orgBMap k))
  | none => m

/-- One step of the org-B loop of `unionComponents` (guarded by
`if (key && !componentMap.has(key))`: insert only a truthy key that is
absent). -/
def stepB (m : List (String × MergedComponent)) (c : Component) :
    List (String × MergedComponent) :=
  match truthyKey c with
  | some k => if (mapGet m k).isSome then m else mapSet m k (mergeFromB c)
  | none => m

/-- `componentMap` after both loops of `unionComponents`. -/
def buildComponentMap (componentsA componentsB : List Component) :
    List (String × MergedComponent) :=
  componentsB.foldl stepB
    (componentsA.foldl (stepA (buildOrgBMap componentsB)) [])

/-! ### The sort comparator: `nameA.localeCompare(nameB)`

`localeCompare` is a host builtin; it is modelled here as ICU default
collation restricted to code points: a primary pass compares case-folded
(ASCII) code points, and a tertiary pass orders lowercase before
uppercase.  Under every standard locale this agrees with the host on the
ASCII names handled by the program, and it is deliberately distinct from
raw code-point comparison. -/

/-- Three-way comparison on `Nat`. -/
def cmpNat (a b : Nat) : Ordering :=
  if a < b then .lt else if b < a then .gt else .eq

/-- Lexicographic three-way comparison of weight lists. -/
def lexNat : List Nat → List Nat → Ordering
  | [], [] => .eq
  | [], _ :: _ => .lt
  | _ :: _, [] => .gt
  | a :: as, b :: bs =>
    match cmpNat a b with
    | .eq => lexNat as bs
    | o => o

/-- Primary collation weight: fold ASCII uppercase onto lowercase. -/
def primaryW (n : Nat) : Nat :=
  if 65 ≤ n ∧ n ≤ 90 then n + 32 else n

/-- Tertiary collation weight: lowercase (0) before uppercase (1). -/
def caseW (n : Nat) : Nat :=
  if 65 ≤ n ∧ n ≤ 90 then 1 else 0

/-- Code points of a string. -/
def codePoints (s : String) : List Nat :=
  s.data.map Char.toNat

/-- Case-sensitive code-point lexicographic strict order on strings, the
order the specification asserts for the reconciled view. -/
def codepointLt (a b : String) : Prop :=
  lexNat (codePoints a) (codePoints b) = .lt

instance (a b : String) : Decidable (codepointLt a b) :=
  inferInstanceAs (Decidable (lexNat (codePoints a) (codePoints b) = .lt))

/-- Model of `a.localeCompare(b)` (sign only): primary pass, then
tertiary pass. -/
def localeCompare (a b : String) : Ordering :=
  match lexNat ((codePoints a).map primaryW) ((codePoints b).map primaryW) with
  | .eq => lexNat ((codePoints a).map caseW) ((codePoints b).map caseW)
  | o => o

/-- The order in which `Array.prototype.sort` leaves two elements under the
comparator of `unionComponents`: comparator result not positive. -/
def sortLe (a b : MergedComponent) : Prop :=
  localeCompare (mergedName a) (mergedName b) ≠ Ordering.gt

instance : DecidableRel sortLe := fun a b =>
  inferInstanceAs
    (Decidable (localeCompare (mergedName a) (mergedName b) ≠ Ordering.gt))

/-- `TreeView.unionComponents` (`treeView.js:1089-1146`): build the org-B
lookup map, merge the org-A entries, append unmatched org-B entries, and
sort the map values by `localeCompare` on the union key. -/
def unionComponents (componentsA componentsB : List Component) :
    List MergedComponent :=
  List.insertionSort sortLe
    ((buildComponentMap componentsA componentsB).map (·.2))

/-! ### Derived annotations read by `renderComponents`
(`treeView.js:1208-1234`) -/

/-- Presence of an entry in the reconciled view. -/
inductive Presence where
  | BOTH
  | A_ONLY
  | B_ONLY
deriving Repr, DecidableEq

/-- The presence class `renderComponents` derives from the two booleans. -/
def presence (m : MergedComponent) : Presence :=
  if m.inOrgA && m.inOrgB then .BOTH
  else if m.inOrgA then .A_ONLY
  else .B_ONLY

/-- Equality hint shown for a both-present entry. -/
inductive Hint where
  | LIKELY_EQUAL
  | LIKELY_DIFFERENT
  | UNKNOWN
deriving Repr, DecidableEq

/-- The symbol choice of `renderComponents` for a both-present entry:
`!` when `hasDifferences`, `=` when both lengths are known, `?`
otherwise. -/
def equalityHint (m : MergedComponent) : Hint :=
  if m.hasDifferences then .LIKELY_DIFFERENT
  else if m.lengthWithoutCommentsA.isSome && m.lengthWithoutCommentsB.isSome
    then .LIKELY_EQUAL
  else .UNKNOWN

/-! ### Observation helpers used only in theorem statements -/

/-- The keys contributed by a list of components. -/
def keysOf (l : List Component) : List String :=
  l.filterMap keyOf

/-- The truthy keys contributed by a list of components — the ones the
loops of `unionComponents` act on. -/
def truthyKeysOf (l : List Component) : List String :=
  l.filterMap truthyKey

/-- The last component of `l` whose truthy key is `k` (the survivor
under repeated `Map.set`). -/
def lastKeyed : List Component → String → Option Component
  | [], _ => none
  | c :: cs, k =>
    match lastKeyed cs k with
    | some r => some r
    | none => if truthyKey c = some k then some c else none

/-- The first component of `l` whose truthy key is `k` (the survivor
under insert-if-absent). -/
def firstKeyed : List Component → String → Option Component
  | [], _ => none
  | c :: cs, k => if truthyKey c = some k then some c else firstKeyed cs k

/-! ### The Salesforce service module (`listMetadataComponents`,
`isThirdPartyComponent`, `retrieveMetadataComponent`, `listBundleFiles`) -/

/-- A raw component as returned by the CLI listing. -/
structure SFComponent where
  fullName : Option String := none
  name : Option String := none
  namespacePfx : Option String := none
deriving Repr, DecidableEq

/-- `isThirdPartyComponent`: truthy `namespacePrefix`, or `__` inside
`component.fullName || component.name || ''`. -/
def isThirdPartyComponent (c : SFComponent) : Bool :=
  if jsStrTruthy c.namespacePfx then true
  else strContains ((jsOrStr c.fullName (jsOrStr c.name (some ""))).getD "") "__"

/-- An error raised by `runCliCommand`, as inspected by the catch block of
`listMetadataComponents`: the optional `status` code, `error.message`, and
`error.toString()`. -/
structure CliError where
  status : Option Int := none
  message : String := ""
  stringRep : String := ""
deriving Repr, DecidableEq

/-- The five substrings the catch block of `listMetadataComponents` treats
as "metadata type unavailable". -/
def unavailableMarkers : List String :=
  ["not found", "does not exist", "not available", "Invalid metadata type",
   "Command failed"]

/-- The recognition test of the catch block of `listMetadataComponents`:
a non-zero `status`, or one of the markers inside `message` or
`toString()`. -/
def isUnavailableError (e : CliError) : Bool :=
  (match e.status with
   | some s => decide (s ≠ 0)
   | none => false) ||
  unavailableMarkers.any (fun p => strContains e.message p) ||
  unavailableMarkers.any (fun p => strContains e.stringRep p)

/-- The shapes of `result.result` that `listMetadataComponents`
distinguishes. -/
inductive CliListResult where
  | noResult
  | arr (components : List SFComponent)
  | withMetadataObjects (components : List SFComponent)
  | unrecognized
deriving Repr, DecidableEq

/-- A record of the Tooling API ApexClass listing query (its `Name`
field). -/
structure ToolingRecord where
  recName : String
deriving Repr, DecidableEq

/-- The mapping step of `listApexClassesViaToolingApi`: `[]` when
`data.records` is absent, else each record mapped to a component whose
`fullName` is the record `Name` (no local third-party filtering). -/
def listApexClassesViaToolingApi (records : Option (List ToolingRecord)) :
    List SFComponent :=
  match records with
  | none => []
  | some rs =>
    rs.map (fun r => { fullName := some r.recName, name := none,
                       namespacePfx := none })

/-- Oracle for one `listMetadataComponents` invocation: the outcome of the
Tooling API listing call (reached only for `ApexClass`) and of the CLI
listing call. -/
structure ListWorld where
  toolingOutcome : Except CliError (Option (List ToolingRecord))
  cliOutcome : Except CliError CliListResult

/-- The CLI branch of `listMetadataComponents`: shape-sniff
`result.result` and filter third-party components. -/
def cliListPath (w : ListWorld) : Except CliError (List SFComponent) :=
  match w.cliOutcome with
  | .error e => .error e
  | .ok r =>
    match r with
    | .noResult => .ok []
    | .arr cs => .ok (cs.filter (fun c => !isThirdPartyComponent c))
    | .withMetadataObjects cs =>
      .ok (cs.filter (fun c => !isThirdPartyComponent c))
    | .unrecognized => .ok []

/-- `listMetadataComponents` (service module): for `ApexClass` try the
Tooling API listing and fall back to the CLI on its failure; the catch
block normalizes recognized "unavailable" errors to `[]` and re-raises
the rest. -/
def listMetadataComponents (metadataType : String) (w : ListWorld) :
    Except CliError (List SFComponent) :=
  let tryOutcome : Except CliError (List SFComponent) :=
    if metadataType = "ApexClass" then
      match w.toolingOutcome with
      | .ok records => .ok (listApexClassesViaToolingApi records)
      | .error _ => cliListPath w
    else cliListPath w
  match tryOutcome with
  | .ok cs => .ok cs
  | .error e => if isUnavailableError e then .ok [] else .error e

/-! ### The content endpoint and `TreeView.openDiffViewer` -/

/-- The JSON payload of `/api/component-content/...` as read by the
viewer: `success`, and optionally `content` / `error`. -/
structure ContentPayload where
  success : Bool
  content : Option String := none
  error : Option String := none
deriving Repr, DecidableEq

/-- The response constructor of the `/api/component-content` route in
`server.js`: `{success:true, content}` on success, else
`success:false` with the error message, defaulting to
"Failed to get component content". -/
def serverContentResponse (r : Except String String) : ContentPayload :=
  match r with
  | .ok c => { success := true, content := some c }
  | .error m =>
    { success := false
      error := some ((jsOrStr (some m)
        (some "Failed to get component content")).getD "") }

/-- Outcome of one `fetch(...).then(res => res.json())` leg: a rejection
(network or parse failure) or a resolved payload. -/
inductive FetchOutcome where
  | rejected (msg : String)
  | resolved (payload : ContentPayload)
deriving Repr, DecidableEq

/-- What `openDiffViewer` leaves on screen. -/
inductive ViewerOutcome where
  | diffShown (contentA contentB : Option String) (areEqual : Bool)
  | errorShown (message : String)
deriving Repr, DecidableEq

/-- `TreeView.openDiffViewer` (`treeView.js:1496-1559`), reduced to its
data flow: `Promise.all` over the two legs; on a double resolve either
show the diff with `areEqual = (dataA.content === dataB.content)` or show
`dataA.error || dataB.error` (defaulting to "Error desconocido"); a rejection lands in
the outer catch. -/
def openDiffViewer (a b : FetchOutcome) : ViewerOutcome :=
  match a, b with
  | .resolved pa, .resolved pb =>
    if pa.success && pb.success then
      .diffShown pa.content pb.content (pa.content == pb.content)
    else
      .errorShown ("Error al cargar el contenido: " ++
        ((jsOrStr pa.error (jsOrStr pb.error (some "Error desconocido"))).getD ""))
  | .rejected m, _ =>
    .errorShown ("Error al abrir el visor de diferencias: " ++ m)
  | _, .rejected m =>
    .errorShown ("Error al abrir el visor de diferencias: " ++ m)

/-! ### Temp-directory discipline of the retrieve paths -/

/-- Events of one retrieval invocation, in execution order. -/
inductive Ev where
  | mkTmpRoot
  | execRetrieve
  | toolingRetrieve
  | readTmp
  | removeTmpDir
deriving Repr, DecidableEq

/-- Oracle for `retrieveViaProjectRetrieve`: the CLI retrieve outcome, the
direct `readFile(join(retrieveDir, filePath))`, the component-folder
search, the `readFile` relative to that folder, and the
`findComponentFile` result (that helper swallows its own errors). -/
structure PRWorld where
  execOutcome : Except String Unit
  directReadOutcome : Except String String
  componentFolder : Option String
  folderReadOutcome : Except String String
  foundFileContent : Option String

/-- The content-locating steps inside the try block of
`retrieveViaProjectRetrieve`: the optional direct read of
`join(retrieveDir, filePath)`, the folder-relative read inside the catch
of that read (which itself may throw), reaching the content variable
(`none` models an unset/empty `content`). -/
def prContentStep (filePath : Option String) (w : PRWorld) :
    Except String (Option String) × List Ev :=
  if jsStrTruthy filePath then
    match w.directReadOutcome with
    | .ok c => (.ok (some c), [Ev.readTmp])
    | .error _ =>
      match w.componentFolder with
      | some _ =>
        match w.folderReadOutcome with
        | .ok c => (.ok (some c), [Ev.readTmp, Ev.readTmp, Ev.readTmp])
        | .error e => (.error e, [Ev.readTmp, Ev.readTmp, Ev.readTmp])
      | none => (.ok none, [Ev.readTmp, Ev.readTmp])
  else (.ok none, [])

/-- The try block of `retrieveViaProjectRetrieve`: CLI retrieve, locate
the content, fall back to `findComponentFile`, and throw when nothing
truthy was found. -/
def prTryRun (metadataType componentName : String) (filePath : Option String)
    (w : PRWorld) : Except String String × List Ev :=
  match w.execOutcome with
  | .error e => (.error e, [Ev.execRetrieve])
  | .ok _ =>
    match (prContentStep filePath w).1 with
    | .error e => (.error e, Ev.execRetrieve :: (prContentStep filePath w).2)
    | .ok c0 =>
      if jsStrTruthy c0 then
        (.ok (c0.getD ""),
         Ev.execRetrieve :: ((prContentStep filePath w).2 ++ []))
      else if jsStrTruthy w.foundFileContent then
        (.ok (w.foundFileContent.getD ""),
         Ev.execRetrieve :: ((prContentStep filePath w).2 ++ [Ev.readTmp]))
      else
        (.error ("Could not find component file for " ++ metadataType ++
           ":" ++ componentName ++ " in retrieved files"),
         Ev.execRetrieve :: ((prContentStep filePath w).2 ++ [Ev.readTmp]))

/-- `retrieveViaProjectRetrieve`: mkdir, run the try block, delete the
temp directory on the success path, and delete it again in the catch
before mapping/rethrowing the error.  Returns the result together with
the event trace. -/
def retrieveViaProjectRetrieve (metadataType componentName orgAlias : String)
    (filePath : Option String) (w : PRWorld) :
    Except String String × List Ev :=
  match (prTryRun metadataType componentName filePath w).1 with
  | .ok c =>
    (.ok c, Ev.mkTmpRoot ::
      (prTryRun metadataType componentName filePath w).2 ++ [Ev.removeTmpDir])
  | .error e =>
    (.error (if strContains e "not found" || strContains e "does not exist"
        then "Component " ++ componentName ++ " not found in org " ++ orgAlias
        else e),
     Ev.mkTmpRoot ::
       (prTryRun metadataType componentName filePath w).2 ++ [Ev.removeTmpDir])

/-- Oracle for `listBundleFiles`: the CLI retrieve outcome and the
recursive directory walk (which may throw). -/
structure LBWorld where
  execOutcome : Except String Unit
  componentFolder : Option String
  filesOutcome : Except String (List String)

/-- The try block of `listBundleFiles`: CLI retrieve, folder search, and
recursive walk. -/
def lbTryRun (w : LBWorld) : Except String (List String) × List Ev :=
  match w.execOutcome with
  | .error e => (.error e, [Ev.execRetrieve])
  | .ok _ =>
    match w.filesOutcome with
    | .ok fs => (.ok fs, [Ev.execRetrieve, Ev.readTmp, Ev.readTmp])
    | .error e => (.error e, [Ev.execRetrieve, Ev.readTmp, Ev.readTmp])

/-- `listBundleFiles`: retrieve into a fresh temp directory, walk it, and
delete it in a `finally` on both the success and the rethrow path. -/
def listBundleFiles (w : LBWorld) : Except String (List String) × List Ev :=
  ((lbTryRun w).1, Ev.mkTmpRoot :: (lbTryRun w).2 ++ [Ev.removeTmpDir])

/-- The four metadata types of `TOOLING_API_TYPES`. -/
def supportsToolingApi (metadataType : String) : Bool :=
  metadataType = "ApexClass" || metadataType = "ApexTrigger" ||
  metadataType = "ApexPage" || metadataType = "ApexComponent"

/-- Oracle for `retrieveMetadataComponent`: the Tooling API content query
outcome plus the project-retrieve oracle. -/
structure RMWorld where
  toolingOutcome : Except String String
  pr : PRWorld

/-- `retrieveMetadataComponent`: reject paths containing `..` before any
remote or filesystem work; for simple types without a file path try the
Tooling API first, falling back to `retrieveViaProjectRetrieve`. -/
def retrieveMetadataComponent (metadataType componentName orgAlias : String)
    (filePath : Option String) (w : RMWorld) :
    Except String String × List Ev :=
  if jsStrTruthy filePath && strContains (filePath.getD "") ".." then
    (.error "Invalid file path", [])
  else if !jsStrTruthy filePath && supportsToolingApi metadataType then
    match w.toolingOutcome with
    | .ok content => (.ok content, [Ev.toolingRetrieve])
    | .error _ =>
      ((retrieveViaProjectRetrieve metadataType componentName orgAlias
          filePath w.pr).1,
       Ev.toolingRetrieve :: (retrieveViaProjectRetrieve metadataType
          componentName orgAlias filePath w.pr).2)
  else
    retrieveViaProjectRetrieve metadataType componentName orgAlias filePath w.pr

/-! ## Lemmas about the JS `Map` model -/

theorem mapGet_mapSet {α : Type} (m : List (String × α)) (k k' : String)
    (v : α) :
    mapGet (mapSet m k v) k' = if k' = k then some v else mapGet m k' := by
  induction m with
  | nil =>
    simp only [mapSet, mapGet]
    by_cases h : k' = k
    · subst h
      simp
    · rw [if_neg (fun hh : k = k' => h hh.symm), if_neg h]
  | cons p ps ih =>
    by_cases hp : p.1 = k
    · by_cases h : k' = k
      · subst h
        simp [mapSet, mapGet, hp]
      · have hp' : ¬ p.1 = k' := by
          rw [hp]
          exact fun hh => h hh.symm
        simp only [mapSet, if_pos hp, mapGet]
        rw [if_neg (fun hh : k = k' => h hh.symm), if_neg h, if_neg hp']
    · by_cases h : k' = k
      · subst h
        simp [mapSet, mapGet, hp, ih]
      · simp [mapSet, mapGet, hp, ih, h]

theorem mapGet_eq_none_iff {α : Type} (m : List (String × α)) (k : String) :
    mapGet m k = none ↔ k ∉ m.map (·.1) := by
  induction m with
  | nil => simp [mapGet]
  | cons p ps ih =>
    by_cases hp : p.1 = k
    · simp [mapGet, hp]
    · simp only [mapGet, if_neg hp, List.map_cons, List.mem_cons]
      constructor
      · intro hk
        push_neg
        exact ⟨fun h1 => hp h1.symm, (ih.mp hk)⟩
      · intro hk
        exact ih.mpr (fun h2 => hk (Or.inr h2))

theorem keys_mapSet {α : Type} (m : List (String × α)) (k : String) (v : α) :
    (mapSet m k v).map (·.1) =
      if (mapGet m k).isSome then m.map (·.1) else m.map (·.1) ++ [k] := by
  induction m with
  | nil => simp [mapSet, mapGet]
  | cons p ps ih =>
    by_cases hp : p.1 = k
    · simp [mapSet, mapGet, hp]
    · simp [mapSet, mapGet, hp, ih]
      by_cases hs : (mapGet ps k).isSome <;> simp [hs]

theorem nodupKeys_mapSet {α : Type} (m : List (String × α)) (k : String)
    (v : α) (h : (m.map (·.1)).Nodup) : ((mapSet m k v).map (·.1)).Nodup := by
  rw [keys_mapSet]
  by_cases hs : (mapGet m k).isSome
  · simpa [hs]
  · have hk : k ∉ m.map (·.1) := by
      rw [← mapGet_eq_none_iff]
      exact Option.not_isSome_iff_eq_none.mp hs
    simp [hs, List.nodup_append, h, hk]

theorem mem_mapSet {α : Type} (m : List (String × α)) (k : String) (v : α)
    (p : String × α) (hp : p ∈ mapSet m k v) : p ∈ m ∨ p = (k, v) := by
  induction m with
  | nil => simpa [mapSet] using hp
  | cons q qs ih =>
    by_cases hq : q.1 = k
    · simp only [mapSet, hq, if_pos rfl] at hp
      rcases List.mem_cons.mp hp with h | h
      · exact Or.inr h
      · exact Or.inl (List.mem_cons_of_mem _ h)
    · simp only [mapSet, hq, if_neg hq] at hp
      rcases List.mem_cons.mp hp with h | h
      · exact Or.inl (h ▸ List.mem_cons_self _ _)
      · rcases ih h with h' | h'
        · exact Or.inl (List.mem_cons_of_mem _ h')
        · exact Or.inr h'

theorem mem_of_mapGet {α : Type} (m : List (String × α)) (k : String)
    (v : α) (h : mapGet m k = some v) : (k, v) ∈ m := by
  induction m with
  | nil => simp [mapGet] at h
  | cons p ps ih =>
    by_cases hp : p.1 = k
    · have h' : p.2 = v := by simpa [mapGet, hp] using h
      have hpkv : p = (k, v) := by
        cases p
        simp_all
      rw [hpkv]
      exact List.mem_cons_self _ _
    · simp only [mapGet, if_neg hp] at h
      exact List.mem_cons_of_mem _ (ih h)

theorem mapGet_of_mem {α : Type} (m : List (String × α)) (k : String)
    (v : α) (hn : (m.map (·.1)).Nodup) (h : (k, v) ∈ m) :
    mapGet m k = some v := by
  induction m with
  | nil => simp at h
  | cons p ps ih =>
    rcases List.mem_cons.mp h with h' | h'
    · simp [mapGet, ← h']
    · have hk : k ∈ ps.map (·.1) := List.mem_map.mpr ⟨(k, v), h', rfl⟩
      have hp : p.1 ≠ k := by
        intro hcontra
        simp only [List.map_cons, List.nodup_cons] at hn
        exact hn.1 (hcontra ▸ hk)
      simp only [mapGet, if_neg hp]
      exact ih (by simp only [List.map_cons, List.nodup_cons] at hn; exact hn.2) h'

/-! ## Keyed-occurrence helpers -/

theorem lastKeyed_key (l : List Component) (k : String) (c : Component)
    (h : lastKeyed l k = some c) : truthyKey c = some k := by
  induction l with
  | nil => simp [lastKeyed] at h
  | cons d ds ih =>
    simp only [lastKeyed] at h
    cases hds : lastKeyed ds k with
    | some r =>
      rw [hds] at h
      exact ih (hds.trans (by injection h with h'; rw [h']))
    | none =>
      rw [hds] at h
      by_cases hd : truthyKey d = some k
      · rw [if_pos hd] at h
        injection h with h'
        rw [← h']
        exact hd
      · rw [if_neg hd] at h
        exact absurd h (by simp)

theorem firstKeyed_key (l : List Component) (k : String) (c : Component)
    (h : firstKeyed l k = some c) : truthyKey c = some k := by
  induction l with
  | nil => simp [firstKeyed] at h
  | cons d ds ih =>
    simp only [firstKeyed] at h
    by_cases hd : truthyKey d = some k
    · rw [if_pos hd] at h
      injection h with h'
      rw [← h']
      exact hd
    · rw [if_neg hd] at h
      exact ih h

theorem lastKeyed_isSome_iff (l : List Component) (k : String) :
    (lastKeyed l k).isSome = true ↔ k ∈ truthyKeysOf l := by
  induction l with
  | nil => simp [lastKeyed, truthyKeysOf]
  | cons d ds ih =>
    simp only [lastKeyed, truthyKeysOf, List.filterMap_cons]
    cases hds : lastKeyed ds k with
    | some r =>
      simp only [Option.isSome_some, true_iff]
      have hk : k ∈ truthyKeysOf ds := ih.mp (by rw [hds]; rfl)
      cases hkey : truthyKey d with
      | none => simpa [truthyKeysOf] using hk
      | some s => simpa [truthyKeysOf] using Or.inr hk
    | none =>
      have hk : k ∉ truthyKeysOf ds := fun hmem => by
        have := ih.mpr hmem
        rw [hds] at this
        simp at this
      by_cases hd : truthyKey d = some k
      · rw [if_pos hd]
        simp [hd]
      · rw [if_neg hd]
        simp only [Option.isSome_none, Bool.false_eq_true, false_iff]
        cases hkey : truthyKey d with
        | none => simpa [truthyKeysOf] using hk
        | some s =>
          have hsk : s ≠ k := fun hc => hd (by rw [hkey, hc])
          simp only [List.mem_cons]
          rintro (h1 | h2)
          · exact hsk h1.symm
          · exact hk h2

theorem firstKeyed_isSome_iff (l : List Component) (k : String) :
    (firstKeyed l k).isSome = true ↔ k ∈ truthyKeysOf l := by
  induction l with
  | nil => simp [firstKeyed, truthyKeysOf]
  | cons d ds ih =>
    simp only [firstKeyed, truthyKeysOf, List.filterMap_cons]
    by_cases hd : truthyKey d = some k
    · rw [if_pos hd]
      simp [hd]
    · rw [if_neg hd]
      cases hkey : truthyKey d with
      | none => simpa [truthyKeysOf] using ih
      | some s =>
        have hsk : s ≠ k := fun hc => hd (by rw [hkey, hc])
        rw [ih]
        simp only [List.mem_cons]
        constructor
        · intro h
          exact Or.inr h
        · rintro (h1 | h2)
          · exact absurd h1.symm hsk
          · exact h2

/-! ## Characterization of the maps built by `unionComponents` -/

theorem foldOrgB_get (B : List Component) (m : List (String × Component))
    (k : String) :
    mapGet (B.foldl stepOrgB m) k =
      match lastKeyed B k with
      | some c => some c
      | none => mapGet m k := by
  induction B generalizing m with
  | nil => simp [lastKeyed]
  | cons c cs ih =>
    simp only [List.foldl_cons, lastKeyed]
    rw [ih]
    cases hcs : lastKeyed cs k with
    | some r => simp
    | none =>
      simp only
      by_cases hc : truthyKey c = some k
      · rw [if_pos hc]
        simp only [stepOrgB, hc]
        rw [mapGet_mapSet]
        simp
      · rw [if_neg hc]
        cases hck : truthyKey c with
        | none => simp [stepOrgB, hck]
        | some s =>
          have hsk : ¬ k = s := fun hc' => hc (by rw [hck, hc'])
          simp only [stepOrgB, hck]
          rw [mapGet_mapSet, if_neg hsk]

theorem foldA_get (A : List Component) (bm : List (String × Component))
    (m : List (String × MergedComponent)) (k : String) :
    mapGet (A.foldl (stepA bm) m) k =
      match lastKeyed A k with
      | some a => some (mergeFromA a (mapGet bm k))
      | none => mapGet m k := by
  induction A generalizing m with
  | nil => simp [lastKeyed]
  | cons c cs ih =>
    simp only [List.foldl_cons, lastKeyed]
    rw [ih]
    cases hcs : lastKeyed cs k with
    | some r => simp
    | none =>
      simp only
      by_cases hc : truthyKey c = some k
      · rw [if_pos hc]
        simp only [stepA, hc]
        rw [mapGet_mapSet]
        simp
      · rw [if_neg hc]
        cases hck : truthyKey c with
        | none => simp [stepA, hck]
        | some s =>
          have hsk : ¬ k = s := fun hc' => hc (by rw [hck, hc'])
          simp only [stepA, hck]
          rw [mapGet_mapSet, if_neg hsk]

theorem foldB_get (B : List Component)
    (m : List (String × MergedComponent)) (k : String) :
    mapGet (B.foldl stepB m) k =
      match mapGet m k with
      | some v => some v
      | none => (firstKeyed B k).map mergeFromB := by
  induction B generalizing m with
  | nil =>
    simp only [List.foldl_nil, firstKeyed]
    cases mapGet m k <;> simp
  | cons c cs ih =>
    simp only [List.foldl_cons, firstKeyed]
    rw [ih]
    by_cases hc : truthyKey c = some k
    · rw [if_pos hc]
      simp only [stepB, hc]
      cases hm : mapGet m k with
      | some v => simp [hm]
      | none => simp [mapGet_mapSet]
    · rw [if_neg hc]
      have hstep : mapGet (stepB m c) k = mapGet m k := by
        cases hck : truthyKey c with
        | none => simp [stepB, hck]
        | some s =>
          have hsk : ¬ k = s := fun hc' => hc (by rw [hck, hc'])
          simp only [stepB, hck]
          by_cases hs : (mapGet m s).isSome
          · rw [if_pos hs]
          · rw [if_neg hs, mapGet_mapSet, if_neg hsk]
      rw [hstep]

theorem buildComponentMap_get (A B : List Component) (k : String) :
    mapGet (buildComponentMap A B) k =
      match lastKeyed A k with
      | some a => some (mergeFromA a (lastKeyed B k))
      | none => (firstKeyed B k).map mergeFromB := by
  unfold buildComponentMap
  rw [foldB_get, foldA_get]
  have hbm : mapGet (buildOrgBMap B) k = lastKeyed B k := by
    unfold buildOrgBMap
    rw [foldOrgB_get]
    cases lastKeyed B k <;> simp [mapGet]
  rw [hbm]
  cases lastKeyed A k with
  | some a => simp
  | none => simp [mapGet]

/-! ## Key uniqueness of the built maps -/

theorem nodupKeys_foldl {α β : Type}
    (f : List (String × α) → β → List (String × α))
    (hf : ∀ m b, (m.map (·.1)).Nodup → ((f m b).map (·.1)).Nodup)
    (l : List β) (m : List (String × α)) (hm : (m.map (·.1)).Nodup) :
    ((l.foldl f m).map (·.1)).Nodup := by
  induction l generalizing m with
  | nil => simpa
  | cons b bs ih => exact ih _ (hf m b hm)

theorem nodupKeys_stepOrgB (m : List (String × Component)) (c : Component)
    (h : (m.map (·.1)).Nodup) : ((stepOrgB m c).map (·.1)).Nodup := by
  unfold stepOrgB
  cases truthyKey c with
  | none => exact h
  | some k => exact nodupKeys_mapSet _ _ _ h

theorem nodupKeys_stepA (bm : List (String × Component))
    (m : List (String × MergedComponent)) (c : Component)
    (h : (m.map (·.1)).Nodup) : ((stepA bm m c).map (·.1)).Nodup := by
  unfold stepA
  cases truthyKey c with
  | none => exact h
  | some k => exact nodupKeys_mapSet _ _ _ h

theorem nodupKeys_stepB (m : List (String × MergedComponent))
    (c : Component) (h : (m.map (·.1)).Nodup) :
    ((stepB m c).map (·.1)).Nodup := by
  cases hck : truthyKey c with
  | none => simpa [stepB, hck] using h
  | some k =>
    simp only [stepB, hck]
    by_cases hs : (mapGet m k).isSome
    · rw [if_pos hs]
      exact h
    · rw [if_neg hs]
      exact nodupKeys_mapSet _ _ _ h

theorem nodupKeys_buildComponentMap (A B : List Component) :
    ((buildComponentMap A B).map (·.1)).Nodup := by
  unfold buildComponentMap
  exact nodupKeys_foldl _ nodupKeys_stepB _ _
    (nodupKeys_foldl _ (nodupKeys_stepA _) _ _ (by simp))

/-! ## What the values of the component map look like -/

theorem truthyKey_eq_some (c : Component) (k : String) :
    truthyKey c = some k ↔ (keyOf c = some k ∧ k ≠ "") := by
  unfold truthyKey
  cases hc : keyOf c with
  | none => simp
  | some s =>
    by_cases hs : s = ""
    · subst hs
      simp
      intro h
      exact h.symm
    · simp only [if_neg hs, Option.some.injEq]
      constructor
      · intro h
        exact ⟨h ▸ rfl, h ▸ hs⟩
      · intro h
        exact h.1

theorem truthyKey_keyOf (c : Component) (k : String)
    (h : truthyKey c = some k) : keyOf c = some k :=
  ((truthyKey_eq_some c k).mp h).1

theorem truthyKey_ne_empty (c : Component) (k : String)
    (h : truthyKey c = some k) : k ≠ "" :=
  ((truthyKey_eq_some c k).mp h).2

theorem mem_truthyKeysOf_iff (l : List Component) (k : String)
    (hk : k ≠ "") : k ∈ truthyKeysOf l ↔ k ∈ keysOf l := by
  unfold truthyKeysOf keysOf
  simp only [List.mem_filterMap]
  constructor
  · rintro ⟨c, hc, hck⟩
    exact ⟨c, hc, truthyKey_keyOf c k hck⟩
  · rintro ⟨c, hc, hck⟩
    exact ⟨c, hc, (truthyKey_eq_some c k).mpr ⟨hck, hk⟩⟩

theorem mapGet_buildComponentMap_key (A B : List Component) (k : String)
    (v : MergedComponent) (h : mapGet (buildComponentMap A B) k = some v) :
    keyOf v.base = some k := by
  rw [buildComponentMap_get] at h
  cases hA : lastKeyed A k with
  | some a =>
    rw [hA] at h
    injection h with h'
    rw [← h']
    exact truthyKey_keyOf a k (lastKeyed_key A k a hA)
  | none =>
    rw [hA] at h
    cases hB : firstKeyed B k with
    | some b =>
      rw [hB] at h
      injection h with h'
      rw [← h']
      exact truthyKey_keyOf b k (firstKeyed_key B k b hB)
    | none =>
      rw [hB] at h
      exact absurd h (by simp)

theorem mapGet_key_ne_empty (A B : List Component) (k : String)
    (v : MergedComponent) (h : mapGet (buildComponentMap A B) k = some v) :
    k ≠ "" := by
  rw [buildComponentMap_get] at h
  cases hA : lastKeyed A k with
  | some a => exact truthyKey_ne_empty a k (lastKeyed_key A k a hA)
  | none =>
    rw [hA] at h
    cases hB : firstKeyed B k with
    | some b => exact truthyKey_ne_empty b k (firstKeyed_key B k b hB)
    | none =>
      rw [hB] at h
      exact absurd h (by simp)

theorem mergedName_eq (m : MergedComponent) :
    mergedName m = (keyOf m.base).getD "" := rfl

theorem mergedName_of_mapGet (A B : List Component) (k : String)
    (v : MergedComponent) (h : mapGet (buildComponentMap A B) k = some v) :
    mergedName v = k := by
  rw [mergedName_eq, mapGet_buildComponentMap_key A B k v h]
  rfl

theorem mem_values_iff_mapGet (A B : List Component) (v : MergedComponent) :
    v ∈ (buildComponentMap A B).map (·.2) ↔
      ∃ k, mapGet (buildComponentMap A B) k = some v := by
  constructor
  · intro h
    rcases List.mem_map.mp h with ⟨p, hp, hpv⟩
    refine ⟨p.1, ?_⟩
    rw [← hpv]
    exact mapGet_of_mem _ _ _ (nodupKeys_buildComponentMap A B)
      (by rw [show (p.1, p.2) = p from rfl]; exact hp)
  · rintro ⟨k, hk⟩
    exact List.mem_map.mpr ⟨(k, v), mem_of_mapGet _ _ _ hk, rfl⟩

theorem mem_unionComponents_iff (A B : List Component) (m : MergedComponent) :
    m ∈ unionComponents A B ↔
      ∃ k, mapGet (buildComponentMap A B) k = some m := by
  rw [← mem_values_iff_mapGet]
  unfold unionComponents
  exact (List.perm_insertionSort sortLe _).mem_iff

theorem mapGet_isSome_iff (A B : List Component) (k : String) :
    (mapGet (buildComponentMap A B) k).isSome = true ↔
      k ∈ truthyKeysOf A ∨ k ∈ truthyKeysOf B := by
  rw [buildComponentMap_get]
  cases hA : lastKeyed A k with
  | some a =>
    have : k ∈ truthyKeysOf A :=
      (lastKeyed_isSome_iff A k).mp (by rw [hA]; rfl)
    simp [this]
  | none =>
    have hnA : k ∉ truthyKeysOf A := fun hmem => by
      have := (lastKeyed_isSome_iff A k).mpr hmem
      rw [hA] at this
      simp at this
    cases hB : firstKeyed B k with
    | some b =>
      have : k ∈ truthyKeysOf B :=
        (firstKeyed_isSome_iff B k).mp (by rw [hB]; rfl)
      simp [this]
    | none =>
      have hnB : k ∉ truthyKeysOf B := fun hmem => by
        have := (firstKeyed_isSome_iff B k).mpr hmem
        rw [hB] at this
        simp at this
      simp [hnA, hnB]

theorem names_values (A B : List Component) :
    ((buildComponentMap A B).map (·.2)).map mergedName =
      (buildComponentMap A B).map (·.1) := by
  rw [List.map_map]
  apply List.map_congr_left
  intro p hp
  have hget : mapGet (buildComponentMap A B) p.1 = some p.2 :=
    mapGet_of_mem _ _ _ (nodupKeys_buildComponentMap A B)
      (by rw [show (p.1, p.2) = p from rfl]; exact hp)
  exact mergedName_of_mapGet A B p.1 p.2 hget

/-! ## Order theory of the modelled `localeCompare` -/

theorem cmpNat_eq_iff (a b : Nat) : cmpNat a b = .eq ↔ a = b := by
  unfold cmpNat
  split_ifs <;> simp <;> omega

theorem cmpNat_lt_iff (a b : Nat) : cmpNat a b = .lt ↔ a < b := by
  unfold cmpNat
  split_ifs <;> simp <;> omega

theorem cmpNat_gt_iff (a b : Nat) : cmpNat a b = .gt ↔ b < a := by
  unfold cmpNat
  split_ifs <;> simp <;> omega

theorem lexNat_eq_iff (xs : List Nat) :
    ∀ ys, lexNat xs ys = .eq ↔ xs = ys := by
  induction xs with
  | nil =>
    intro ys
    cases ys <;> simp [lexNat]
  | cons a as ih =>
    intro ys
    cases ys with
    | nil => simp [lexNat]
    | cons b bs =>
      simp only [lexNat]
      cases hc : cmpNat a b with
      | eq =>
        have hab : a = b := (cmpNat_eq_iff a b).mp hc
        simp [ih bs, hab]
      | lt =>
        have hne : ¬ a = b := by
          have := (cmpNat_lt_iff a b).mp hc
          omega
        simp [hne]
      | gt =>
        have hne : ¬ a = b := by
          have := (cmpNat_gt_iff a b).mp hc
          omega
        simp [hne]

theorem lexNat_swap (xs : List Nat) :
    ∀ ys, lexNat ys xs = (lexNat xs ys).swap := by
  induction xs with
  | nil =>
    intro ys
    cases ys <;> simp [lexNat, Ordering.swap]
  | cons a as ih =>
    intro ys
    cases ys with
    | nil => simp [lexNat, Ordering.swap]
    | cons b bs =>
      simp only [lexNat]
      cases hc : cmpNat a b with
      | eq =>
        have hab : a = b := (cmpNat_eq_iff a b).mp hc
        subst hab
        simp [hc, ih bs, Ordering.swap]
      | lt =>
        have hba : cmpNat b a = .gt := by
          rw [cmpNat_gt_iff]
          exact (cmpNat_lt_iff a b).mp hc
        simp [hc, hba, Ordering.swap]
      | gt =>
        have hba : cmpNat b a = .lt := by
          rw [cmpNat_lt_iff]
          exact (cmpNat_gt_iff a b).mp hc
        simp [hc, hba, Ordering.swap]

theorem lexNat_lt_trans (xs : List Nat) :
    ∀ ys zs, lexNat xs ys = .lt → lexNat ys zs = .lt →
      lexNat xs zs = .lt := by
  induction xs with
  | nil =>
    intro ys zs h1 h2
    cases ys with
    | nil => exact h2
    | cons b bs =>
      cases zs with
      | nil => simp [lexNat] at h2
      | cons c cs => simp [lexNat]
  | cons a as ih =>
    intro ys zs h1 h2
    cases ys with
    | nil => simp [lexNat] at h1
    | cons b bs =>
      cases zs with
      | nil => simp [lexNat] at h2
      | cons c cs =>
        simp only [lexNat] at h1 h2 ⊢
        cases hab : cmpNat a b with
        | gt => simp [hab] at h1
        | lt =>
          rw [hab] at h1
          cases hbc : cmpNat b c with
          | gt => simp [hbc] at h2
          | lt =>
            have hac : cmpNat a c = .lt := by
              rw [cmpNat_lt_iff]
              have h1' := (cmpNat_lt_iff a b).mp hab
              have h2' := (cmpNat_lt_iff b c).mp hbc
              omega
            simp [hac]
          | eq =>
            have hbceq : b = c := (cmpNat_eq_iff b c).mp hbc
            subst hbceq
            simp [hab]
        | eq =>
          rw [hab] at h1
          have habeq : a = b := (cmpNat_eq_iff a b).mp hab
          subst habeq
          cases hbc : cmpNat a c with
          | gt => simp [hbc] at h2
          | lt => simp [hbc]
          | eq =>
            rw [hbc] at h2
            simp only [hbc]
            exact ih bs cs h1 h2

theorem weight_inj (n1 n2 : Nat) (hp : primaryW n1 = primaryW n2)
    (hc : caseW n1 = caseW n2) : n1 = n2 := by
  unfold primaryW at hp
  unfold caseW at hc
  split_ifs at hp hc <;> omega

theorem weights_inj (xs : List Nat) :
    ∀ ys, xs.map primaryW = ys.map primaryW →
      xs.map caseW = ys.map caseW → xs = ys := by
  induction xs with
  | nil =>
    intro ys hp _
    cases ys with
    | nil => rfl
    | cons y yt => simp at hp
  | cons x xt ih =>
    intro ys hp hc
    cases ys with
    | nil => simp at hp
    | cons y yt =>
      simp only [List.map_cons, List.cons.injEq] at hp hc
      exact List.cons.injEq x xt y yt ▸
        ⟨weight_inj x y hp.1 hc.1, ih yt hp.2 hc.2⟩

theorem codePoints_inj (s t : String) (h : codePoints s = codePoints t) :
    s = t := by
  unfold codePoints at h
  have hinj : Function.Injective Char.toNat := fun a b hab =>
    Char.eq_of_val_eq (UInt32.toNat.inj hab)
  have hdata : s.data = t.data := List.map_injective_iff.mpr hinj h
  cases s
  cases t
  simp_all

theorem localeCompare_eq_iff (a b : String) :
    localeCompare a b = .eq ↔ a = b := by
  unfold localeCompare
  constructor
  · intro h
    cases hp : lexNat ((codePoints a).map primaryW)
        ((codePoints b).map primaryW) with
    | lt => rw [hp] at h; cases h
    | gt => rw [hp] at h; cases h
    | eq =>
      rw [hp] at h
      have h1 := (lexNat_eq_iff _ _).mp hp
      have h2 := (lexNat_eq_iff _ _).mp h
      exact codePoints_inj a b (weights_inj _ _ h1 h2)
  · intro h
    subst h
    rw [(lexNat_eq_iff _ _).mpr rfl]
    exact (lexNat_eq_iff _ _).mpr rfl

theorem localeCompare_swap (a b : String) :
    localeCompare b a = (localeCompare a b).swap := by
  unfold localeCompare
  rw [lexNat_swap ((codePoints a).map primaryW),
    lexNat_swap ((codePoints a).map caseW)]
  cases lexNat ((codePoints a).map primaryW)
    ((codePoints b).map primaryW) <;> simp [Ordering.swap]

theorem localeCompare_lt_trans (a b c : String)
    (h1 : localeCompare a b = .lt) (h2 : localeCompare b c = .lt) :
    localeCompare a c = .lt := by
  unfold localeCompare at h1 h2 ⊢
  cases hab : lexNat ((codePoints a).map primaryW)
      ((codePoints b).map primaryW) with
  | gt => rw [hab] at h1; cases h1
  | lt =>
    rw [hab] at h1
    cases hbc : lexNat ((codePoints b).map primaryW)
        ((codePoints c).map primaryW) with
    | gt => rw [hbc] at h2; cases h2
    | lt =>
      rw [lexNat_lt_trans _ _ _ hab hbc]
    | eq =>
      have hbceq := (lexNat_eq_iff _ _).mp hbc
      rw [← hbceq, hab]
  | eq =>
    rw [hab] at h1
    have habeq := (lexNat_eq_iff _ _).mp hab
    cases hbc : lexNat ((codePoints b).map primaryW)
        ((codePoints c).map primaryW) with
    | gt => rw [hbc] at h2; cases h2
    | lt => rw [habeq, hbc]
    | eq =>
      rw [hbc] at h2
      simp only [habeq, hbc]
      exact lexNat_lt_trans _ _ _ h1 h2

instance sortLe_total : IsTotal MergedComponent sortLe := by
  constructor
  intro x y
  by_cases h : localeCompare (mergedName x) (mergedName y) = Ordering.gt
  · right
    unfold sortLe
    rw [localeCompare_swap, h]
    simp [Ordering.swap]
  · left
    exact h

instance sortLe_trans : IsTrans MergedComponent sortLe := by
  constructor
  intro x y z hxy hyz
  unfold sortLe at hxy hyz ⊢
  intro hgt
  have hzx : localeCompare (mergedName z) (mergedName x) = .lt := by
    rw [localeCompare_swap, hgt]
    rfl
  cases hxy' : localeCompare (mergedName x) (mergedName y) with
  | gt => exact hxy hxy'
  | eq =>
    have := (localeCompare_eq_iff _ _).mp hxy'
    rw [this] at hgt
    cases hyz' : localeCompare (mergedName y) (mergedName z) with
    | gt => exact hyz hyz'
    | eq =>
      have h2 := (localeCompare_eq_iff _ _).mp hyz'
      rw [h2] at hgt
      rw [(localeCompare_eq_iff _ _).mpr rfl] at hgt
      cases hgt
    | lt => rw [hyz'] at hgt; cases hgt
  | lt =>
    cases hyz' : localeCompare (mergedName y) (mergedName z) with
    | gt => exact hyz hyz'
    | eq =>
      have h2 := (localeCompare_eq_iff _ _).mp hyz'
      rw [← h2, hxy'] at hgt
      cases hgt
    | lt =>
      rw [localeCompare_lt_trans _ _ _ hxy' hyz'] at hgt
      cases hgt

/-! ## Claim theorems: the reconciliation engine -/

/-- C1: for every pair of entry lists in which each entry has a name (a
JS-truthy union key), the output of `unionComponents` carries exactly the
set-union of the names of the two inputs — every input name appears, no
name twice, no other name. -/
theorem unionComponents_names_exact (A B : List Component)
    (hA : ∀ c ∈ A, (truthyKey c).isSome = true)
    (hB : ∀ c ∈ B, (truthyKey c).isSome = true) :
    ((unionComponents A B).map mergedName).Nodup ∧
    (∀ k : String, k ∈ (unionComponents A B).map mergedName ↔
      ((∃ c ∈ A, keyOf c = some k) ∨ (∃ c ∈ B, keyOf c = some k))) := by
  have hperm : List.Perm (unionComponents A B)
      ((buildComponentMap A B).map (·.2)) :=
    List.perm_insertionSort sortLe _
  have hpermn : List.Perm ((unionComponents A B).map mergedName)
      ((buildComponentMap A B).map (·.1)) := by
    have := hperm.map mergedName
    rwa [names_values] at this
  constructor
  · exact hpermn.symm.nodup (nodupKeys_buildComponentMap A B)
  · intro k
    rw [hpermn.mem_iff]
    have hkeys : k ∈ (buildComponentMap A B).map (·.1) ↔
        (mapGet (buildComponentMap A B) k).isSome = true := by
      rcases hs : mapGet (buildComponentMap A B) k with _ | v
      · simp [(mapGet_eq_none_iff _ _).mp hs]
      · simp only [Option.isSome_some, iff_true]
        exact List.mem_map.mpr ⟨(k, v), mem_of_mapGet _ _ _ hs, rfl⟩
    rw [hkeys, mapGet_isSome_iff]
    have hside : ∀ (l : List Component),
        (∀ c ∈ l, (truthyKey c).isSome = true) →
        (k ∈ truthyKeysOf l ↔ ∃ c ∈ l, keyOf c = some k) := by
      intro l hl
      unfold truthyKeysOf
      simp only [List.mem_filterMap]
      constructor
      · rintro ⟨c, hc, hck⟩
        exact ⟨c, hc, truthyKey_keyOf c k hck⟩
      · rintro ⟨c, hc, hck⟩
        refine ⟨c, hc, ?_⟩
        obtain ⟨k2, hk2⟩ := Option.isSome_iff_exists.mp (hl c hc)
        have hko := truthyKey_keyOf c k2 hk2
        rw [hck] at hko
        injection hko with h2
        rw [hk2, ← h2]
    rw [hside A hA, hside B hB]

/-- Witness for C1 on the concrete scenario of the spec: A lists Foo and
Bar, B lists Foo and Baz. -/
theorem unionComponents_names_exact_witness :
    ((∀ c ∈ [({ fullName := some "Foo" } : Component),
        { fullName := some "Bar" }], (truthyKey c).isSome = true) ∧
     (∀ c ∈ [({ fullName := some "Foo" } : Component),
        { fullName := some "Baz" }], (truthyKey c).isSome = true)) ∧
    (((unionComponents [{ fullName := some "Foo" }, { fullName := some "Bar" }]
        [{ fullName := some "Foo" }, { fullName := some "Baz" }]).map
          mergedName).Nodup ∧
      (∀ k : String, k ∈ (unionComponents
          [{ fullName := some "Foo" }, { fullName := some "Bar" }]
          [{ fullName := some "Foo" }, { fullName := some "Baz" }]).map
            mergedName ↔
        ((∃ c ∈ [({ fullName := some "Foo" } : Component),
            { fullName := some "Bar" }], keyOf c = some k) ∨
         (∃ c ∈ [({ fullName := some "Foo" } : Component),
            { fullName := some "Baz" }], keyOf c = some k)))) :=
  ⟨⟨by decide, by decide⟩,
   unionComponents_names_exact _ _ (by decide) (by decide)⟩

/-- C2: every entry of the reconciled view is marked `inOrgA` exactly when
its name occurs in A, `inOrgB` exactly when it occurs in B, and its
presence class is BOTH / A_ONLY / B_ONLY accordingly. -/
theorem unionComponents_presence_correct (A B : List Component)
    (m : MergedComponent) (hm : m ∈ unionComponents A B) :
    (m.inOrgA = true ↔ mergedName m ∈ keysOf A) ∧
    (m.inOrgB = true ↔ mergedName m ∈ keysOf B) ∧
    (presence m = .BOTH ↔
      (mergedName m ∈ keysOf A ∧ mergedName m ∈ keysOf B)) ∧
    (presence m = .A_ONLY ↔
      (mergedName m ∈ keysOf A ∧ mergedName m ∉ keysOf B)) ∧
    (presence m = .B_ONLY ↔
      (mergedName m ∉ keysOf A ∧ mergedName m ∈ keysOf B)) := by
  obtain ⟨k, hk⟩ := (mem_unionComponents_iff A B m).mp hm
  have hkne : k ≠ "" := mapGet_key_ne_empty A B k m hk
  rw [mergedName_of_mapGet A B k m hk]
  rw [buildComponentMap_get] at hk
  cases hA : lastKeyed A k with
  | some a =>
    rw [hA] at hk
    injection hk with hk'
    have hkA : k ∈ keysOf A := (mem_truthyKeysOf_iff A k hkne).mp
      ((lastKeyed_isSome_iff A k).mp (by rw [hA]; rfl))
    cases hB : lastKeyed B k with
    | some b =>
      have hkB : k ∈ keysOf B := (mem_truthyKeysOf_iff B k hkne).mp
        ((lastKeyed_isSome_iff B k).mp (by rw [hB]; rfl))
      rw [hB] at hk'
      rw [← hk']
      simp [mergeFromA, presence, hkA, hkB]
    | none =>
      have hkB : k ∉ keysOf B := fun hmem => by
        have := (lastKeyed_isSome_iff B k).mpr
          ((mem_truthyKeysOf_iff B k hkne).mpr hmem)
        rw [hB] at this
        simp at this
      rw [hB] at hk'
      rw [← hk']
      simp [mergeFromA, presence, hkA, hkB]
  | none =>
    rw [hA] at hk
    have hkA : k ∉ keysOf A := fun hmem => by
      have := (lastKeyed_isSome_iff A k).mpr
        ((mem_truthyKeysOf_iff A k hkne).mpr hmem)
      rw [hA] at this
      simp at this
    cases hB : firstKeyed B k with
    | some b =>
      have hkB : k ∈ keysOf B := (mem_truthyKeysOf_iff B k hkne).mp
        ((firstKeyed_isSome_iff B k).mp (by rw [hB]; rfl))
      rw [hB] at hk
      injection hk with hk'
      rw [← hk']
      simp [mergeFromB, presence, hkA, hkB]
    | none =>
      rw [hB] at hk
      exact absurd hk (by simp)

/-- Witness for C2: the merged Foo entry of a concrete run is
both-present. -/
theorem unionComponents_presence_correct_witness :
    (mergeFromA { fullName := some "Foo" } (some { fullName := some "Foo" }) ∈
      unionComponents [{ fullName := some "Foo" }, { fullName := some "Bar" }]
        [{ fullName := some "Foo" }]) ∧
    (presence (mergeFromA { fullName := some "Foo" }
        (some { fullName := some "Foo" })) = .BOTH ↔
      (mergedName (mergeFromA { fullName := some "Foo" }
          (some { fullName := some "Foo" })) ∈
          keysOf [{ fullName := some "Foo" }, { fullName := some "Bar" }] ∧
        mergedName (mergeFromA { fullName := some "Foo" }
          (some { fullName := some "Foo" })) ∈
          keysOf [{ fullName := some "Foo" }])) :=
  ⟨by decide,
   (unionComponents_presence_correct
      [{ fullName := some "Foo" }, { fullName := some "Bar" }]
      [{ fullName := some "Foo" }]
      (mergeFromA { fullName := some "Foo" }
        (some { fullName := some "Foo" }))
      (by decide)).2.2.1⟩

/-- C3: for every both-present entry of the reconciled view, the equality
hint is LIKELY_EQUAL exactly on equal known fingerprints, LIKELY_DIFFERENT
exactly on unequal known fingerprints, and UNKNOWN whenever either side's
fingerprint is absent. -/
theorem unionComponents_hint_correct (A B : List Component)
    (m : MergedComponent) (hm : m ∈ unionComponents A B)
    (hboth : presence m = .BOTH) :
    (∀ la lb : Int, m.lengthWithoutCommentsA = some la →
      m.lengthWithoutCommentsB = some lb →
      equalityHint m =
        (if la = lb then .LIKELY_EQUAL else .LIKELY_DIFFERENT)) ∧
    ((m.lengthWithoutCommentsA = none ∨ m.lengthWithoutCommentsB = none) →
      equalityHint m = .UNKNOWN) := by
  obtain ⟨k, hk⟩ := (mem_unionComponents_iff A B m).mp hm
  rw [buildComponentMap_get] at hk
  cases hA : lastKeyed A k with
  | some a =>
    rw [hA] at hk
    injection hk with hk'
    cases hB : lastKeyed B k with
    | some b =>
      rw [hB] at hk'
      constructor
      · intro la lb h1 h2
        rw [← hk'] at h1 h2 ⊢
        simp only [mergeFromA] at h1 h2
        have hb2 : b.lengthWithoutComments = some lb := by
          simpa using h2
        by_cases hll : la = lb
        · simp [equalityHint, mergeFromA, h1, hb2, hll]
        · simp [equalityHint, mergeFromA, h1, hb2, hll]
      · intro habs
        rw [← hk'] at habs ⊢
        simp only [mergeFromA] at habs
        rcases habs with h1 | h2
        · simp [equalityHint, mergeFromA, h1]
        · have hb2 : b.lengthWithoutComments = none := by
            simpa using h2
          cases hca : a.lengthWithoutComments <;>
            simp [equalityHint, mergeFromA, hca, hb2]
    | none =>
      rw [hB] at hk'
      rw [← hk'] at hboth
      simp [presence, mergeFromA] at hboth
  | none =>
    rw [hA] at hk
    cases hB : firstKeyed B k with
    | some b =>
      rw [hB] at hk
      injection hk with hk'
      rw [← hk'] at hboth
      simp [presence, mergeFromB] at hboth
    | none =>
      rw [hB] at hk
      exact absurd hk (by simp)

/-- Witness for C3: a both-present Foo with fingerprints 10 and 99 gets
the hint for unequal fingerprints. -/
theorem unionComponents_hint_correct_witness :
    (mergeFromA { fullName := some "Foo", lengthWithoutComments := some 10 }
        (some { fullName := some "Foo", lengthWithoutComments := some 99 }) ∈
      unionComponents
        [{ fullName := some "Foo", lengthWithoutComments := some 10 }]
        [{ fullName := some "Foo", lengthWithoutComments := some 99 }]) ∧
    (presence (mergeFromA
        { fullName := some "Foo", lengthWithoutComments := some 10 }
        (some { fullName := some "Foo", lengthWithoutComments := some 99 })) =
      .BOTH) ∧
    equalityHint (mergeFromA
        { fullName := some "Foo", lengthWithoutComments := some 10 }
        (some { fullName := some "Foo", lengthWithoutComments := some 99 })) =
      (if (10 : Int) = 99 then .LIKELY_EQUAL else .LIKELY_DIFFERENT) :=
  ⟨by decide, by decide,
   (unionComponents_hint_correct
      [{ fullName := some "Foo", lengthWithoutComments := some 10 }]
      [{ fullName := some "Foo", lengthWithoutComments := some 99 }]
      (mergeFromA { fullName := some "Foo", lengthWithoutComments := some 10 }
        (some { fullName := some "Foo", lengthWithoutComments := some 99 }))
      (by decide) (by decide)).1 10 99 (by decide) (by decide)⟩

/-- C4 counterexample: on inputs named "a" (org A) and "B" (org B) the
reconciled view comes out in the order "a", "B" — and "a" is not
code-point-less-than "B", so consecutive names are not strictly increasing
under case-sensitive code-point comparison. -/
theorem unionComponents_not_codepoint_sorted :
    (unionComponents [{ fullName := some "a" }]
        [{ fullName := some "B" }]).map mergedName = ["a", "B"] ∧
      ¬ codepointLt "a" "B" :=
  ⟨by decide, by decide⟩

/-- C4 amended: the reconciled view is sorted by name in strictly
increasing locale order — the order of `localeCompare` (case-insensitive
primary pass, lowercase-first tertiary pass), not raw code-point order. -/
theorem unionComponents_sorted_locale (A B : List Component) :
    List.Pairwise (fun m1 m2 =>
      localeCompare (mergedName m1) (mergedName m2) = Ordering.lt)
      (unionComponents A B) := by
  have hsorted : List.Pairwise sortLe (unionComponents A B) :=
    List.sorted_insertionSort sortLe _
  have hperm :=
    List.perm_insertionSort sortLe ((buildComponentMap A B).map (·.2))
  have hnames : List.Perm ((unionComponents A B).map mergedName)
      ((buildComponentMap A B).map (·.1)) := by
    have := hperm.map mergedName
    rwa [names_values] at this
  have hnodup : ((unionComponents A B).map mergedName).Nodup :=
    hnames.symm.nodup (nodupKeys_buildComponentMap A B)
  have hpne : List.Pairwise (fun m1 m2 => mergedName m1 ≠ mergedName m2)
      (unionComponents A B) := (List.pairwise_map).mp hnodup
  refine (hsorted.and hpne).imp ?_
  intro m1 m2 h
  obtain ⟨hle, hne⟩ := h
  cases hc : localeCompare (mergedName m1) (mergedName m2) with
  | lt => rfl
  | eq => exact absurd ((localeCompare_eq_iff _ _).mp hc) hne
  | gt => exact absurd hc hle

/-! ## Claim theorems: comparator, listing, retrieval -/

/-- C5: if either leg of the parallel content fetch fails — a rejected
promise or a `success:false` payload — `openDiffViewer` shows a failure
carrying the message of the failing side and never shows the diff (no partial
result). -/
theorem openDiffViewer_all_or_nothing :
    (∀ pa pb : ContentPayload, (pa.success = false ∨ pb.success = false) →
      ∀ cA cB eq, openDiffViewer (.resolved pa) (.resolved pb) ≠
        .diffShown cA cB eq) ∧
    (∀ m : String, m ≠ "" → ∀ rb : Except String String,
      openDiffViewer (.resolved (serverContentResponse (.error m)))
        (.resolved (serverContentResponse rb)) =
        .errorShown ("Error al cargar el contenido: " ++ m)) ∧
    (∀ (cA m : String), m ≠ "" →
      openDiffViewer (.resolved (serverContentResponse (.ok cA)))
        (.resolved (serverContentResponse (.error m))) =
        .errorShown ("Error al cargar el contenido: " ++ m)) ∧
    (∀ (m : String) (b : FetchOutcome), openDiffViewer (.rejected m) b =
      .errorShown ("Error al abrir el visor de diferencias: " ++ m)) ∧
    (∀ (p : ContentPayload) (m : String),
      openDiffViewer (.resolved p) (.rejected m) =
      .errorShown ("Error al abrir el visor de diferencias: " ++ m)) := by
  refine ⟨?_, ?_, ?_, ?_, ?_⟩
  · intro pa pb h cA cB eq
    rcases h with h | h <;> simp [openDiffViewer, h]
  · intro m hm rb
    simp [openDiffViewer, serverContentResponse, jsOrStr, hm]
  · intro cA m hm
    simp [openDiffViewer, serverContentResponse, jsOrStr, hm]
  · intro m b
    cases b <;> rfl
  · intro p m
    rfl

/-- Witness for C5 on the spec scenario: the org-B fetch fails with a
network error; the result is a failure carrying the org-B message and the
fetched org-A content is not shown. -/
theorem openDiffViewer_all_or_nothing_witness :
    (("network error" : String) ≠ "") ∧
    openDiffViewer (.resolved (serverContentResponse (.ok "class Foo")))
        (.resolved (serverContentResponse (.error "network error"))) =
      .errorShown ("Error al cargar el contenido: " ++ "network error") :=
  ⟨by decide,
   openDiffViewer_all_or_nothing.2.2.1 "class Foo" "network error"
     (by decide)⟩

/-- C7: when both fetches succeed the displayed verdict is literal string
equality of the two payloads — true exactly when the strings coincide;
no listing-time fingerprint enters the computation. -/
theorem openDiffViewer_verdict_is_content_equality (cA cB : String) :
    openDiffViewer (.resolved (serverContentResponse (.ok cA)))
        (.resolved (serverContentResponse (.ok cB))) =
      .diffShown (some cA) (some cB) (cA == cB) ∧
    ((cA == cB) = true ↔ cA = cB) := by
  constructor
  · rfl
  · exact beq_iff_eq

/-- C6: when the CLI listing fails with an error the catch block
recognizes as "metadata type unavailable", `listMetadataComponents`
returns `[]`; an unrecognized error (for example a JSON-parse failure) is
re-raised unchanged.  (For `ApexClass` the CLI path is reached only after
a Tooling API failure.) -/
theorem listMetadataComponents_error_normalization (metadataType : String)
    (w : ListWorld) (e : CliError)
    (hcli : w.cliOutcome = Except.error e)
    (htool : metadataType = "ApexClass" →
      ∃ te, w.toolingOutcome = Except.error te) :
    (isUnavailableError e = true →
      listMetadataComponents metadataType w = .ok []) ∧
    (isUnavailableError e = false →
      listMetadataComponents metadataType w = .error e) := by
  by_cases hmt : metadataType = "ApexClass"
  · obtain ⟨te, hte⟩ := htool hmt
    constructor <;> intro h <;>
      simp [listMetadataComponents, cliListPath, hmt, hte, hcli, h]
  · constructor <;> intro h <;>
      simp [listMetadataComponents, cliListPath, hmt, hcli, h]

/-- Witness for C6: a parse failure is re-raised for a non-ApexClass
category. -/
theorem listMetadataComponents_error_normalization_witness :
    (({ toolingOutcome := Except.error { status := none },
        cliOutcome :=
          Except.error { message := "Failed to parse JSON output: x" } } :
        ListWorld).cliOutcome =
      Except.error { message := "Failed to parse JSON output: x" }) ∧
    (isUnavailableError { message := "Failed to parse JSON output: x" } =
      false) ∧
    listMetadataComponents "Profile"
        { toolingOutcome := Except.error { status := none },
          cliOutcome :=
            Except.error { message := "Failed to parse JSON output: x" } } =
      .error { message := "Failed to parse JSON output: x" } :=
  ⟨rfl, by decide,
   (listMetadataComponents_error_normalization "Profile" _ _ rfl
     (fun h => absurd h (by decide))).2 (by decide)⟩

/-- C9 counterexample: on the `ApexClass` Tooling API listing path, a
record whose `Name` contains `__` is returned unfiltered — its mapped
entry is classified third-party by the very
`isThirdPartyComponent` of the module, falsifying "third-party entries are always
filtered out". -/
theorem listMetadataComponents_tooling_path_unfiltered :
    listMetadataComponents "ApexClass"
        { toolingOutcome := Except.ok (some [{ recName := "pkg__Managed" }]),
          cliOutcome := Except.ok CliListResult.noResult } =
      .ok [{ fullName := some "pkg__Managed", name := none,
             namespacePfx := none }] ∧
    isThirdPartyComponent
        { fullName := some "pkg__Managed", name := none,
          namespacePfx := none } = true :=
  ⟨rfl, by decide⟩

/-- C9 amended: every entry returned through the CLI listing path (every
category other than `ApexClass`, and `ApexClass` when its Tooling API
listing fails) passes the third-party filter: no truthy
`namespacePrefix` and no `__` in the effective name; the `ApexClass`
Tooling API path instead delegates exclusion to the remote query and does
not filter locally. -/
theorem listMetadataComponents_cli_path_filters (metadataType : String)
    (w : ListWorld) (cs : List SFComponent)
    (htool : metadataType = "ApexClass" →
      ∃ te, w.toolingOutcome = Except.error te)
    (hres : listMetadataComponents metadataType w = .ok cs) :
    ∀ c ∈ cs, isThirdPartyComponent c = false := by
  have hcli : ∀ cs', cliListPath w = .ok cs' →
      ∀ c ∈ cs', isThirdPartyComponent c = false := by
    intro cs' h c hc
    unfold cliListPath at h
    cases hco : w.cliOutcome with
    | error e =>
      rw [hco] at h
      cases h
    | ok r =>
      rw [hco] at h
      cases r with
      | noResult =>
        injection h with h'
        rw [← h'] at hc
        cases hc
      | arr ls =>
        injection h with h'
        rw [← h'] at hc
        have := (List.mem_filter.mp hc).2
        simpa using this
      | withMetadataObjects ls =>
        injection h with h'
        rw [← h'] at hc
        have := (List.mem_filter.mp hc).2
        simpa using this
      | unrecognized =>
        injection h with h'
        rw [← h'] at hc
        cases hc
  have htry : listMetadataComponents metadataType w =
      (match cliListPath w with
       | .ok cs' => .ok cs'
       | .error e => if isUnavailableError e then .ok [] else .error e) := by
    unfold listMetadataComponents
    by_cases hmt : metadataType = "ApexClass"
    · obtain ⟨te, hte⟩ := htool hmt
      simp [hmt, hte]
    · simp [hmt]
  rw [htry] at hres
  cases hcl : cliListPath w with
  | ok cs' =>
    rw [hcl] at hres
    injection hres with h'
    rw [← h']
    exact hcli cs' hcl
  | error e =>
    rw [hcl] at hres
    by_cases hu : isUnavailableError e = true
    · simp only [hu, if_true] at hres
      injection hres with h'
      rw [← h']
      intro c hc
      cases hc
    · simp [hu] at hres

/-- Witness for C9 amended: a CLI listing containing one own and one
third-party component keeps only the own one. -/
theorem listMetadataComponents_cli_path_filters_witness :
    listMetadataComponents "Profile"
        { toolingOutcome := Except.error { status := none },
          cliOutcome := Except.ok (CliListResult.arr
            [{ fullName := some "Mine" }, { fullName := some "pkg__Bad" }]) } =
      .ok [{ fullName := some "Mine" }] ∧
    (∀ c ∈ [({ fullName := some "Mine" } : SFComponent)],
      isThirdPartyComponent c = false) :=
  ⟨rfl,
   listMetadataComponents_cli_path_filters "Profile"
     { toolingOutcome := Except.error { status := none },
       cliOutcome := Except.ok (CliListResult.arr
         [{ fullName := some "Mine" }, { fullName := some "pkg__Bad" }]) }
     [{ fullName := some "Mine" }]
     (fun h => absurd h (by decide)) rfl⟩

/-! ## Temp-directory release (C8) -/

theorem trace_shape (tr : List Ev) (h : Ev.removeTmpDir ∉ tr) :
    (Ev.mkTmpRoot :: tr ++ [Ev.removeTmpDir]).getLast? =
        some Ev.removeTmpDir ∧
      (Ev.mkTmpRoot :: tr ++ [Ev.removeTmpDir]).count Ev.removeTmpDir = 1 := by
  constructor
  · rw [show Ev.mkTmpRoot :: tr ++ [Ev.removeTmpDir] =
      (Ev.mkTmpRoot :: tr) ++ [Ev.removeTmpDir] from rfl]
    exact List.getLast?_concat _
  · simp [List.count_cons, List.count_append, List.count_eq_zero.mpr h]

theorem prContentStep_no_remove (fp : Option String) (w : PRWorld) :
    Ev.removeTmpDir ∉ (prContentStep fp w).2 := by
  unfold prContentStep
  by_cases hfp : jsStrTruthy fp = true
  · rw [if_pos hfp]
    cases w.directReadOutcome with
    | ok c => simp
    | error e =>
      cases w.componentFolder with
      | some f =>
        cases w.folderReadOutcome with
        | ok c => simp
        | error e2 => simp
      | none => simp
  · rw [if_neg hfp]
    simp

theorem prTryRun_no_remove (mt cn : String) (fp : Option String)
    (w : PRWorld) : Ev.removeTmpDir ∉ (prTryRun mt cn fp w).2 := by
  have hcs := prContentStep_no_remove fp w
  unfold prTryRun
  cases w.execOutcome with
  | error e => simp
  | ok u =>
    cases hc : (prContentStep fp w).1 with
    | error e =>
      simp only [List.mem_cons]
      intro hmem
      rcases hmem with h1 | h2
      · cases h1
      · exact hcs h2
    | ok c0 =>
      by_cases h0 : jsStrTruthy c0 = true
      · simp only [h0, if_true, List.mem_cons, List.mem_append]
        intro hmem
        rcases hmem with h1 | h2 | h3
        · cases h1
        · exact hcs h2
        · cases h3
      · by_cases h1 : jsStrTruthy w.foundFileContent = true <;>
          simp only [h0, h1, Bool.false_eq_true, if_false, if_true,
            List.mem_cons, List.mem_append] <;>
          intro hmem <;>
          rcases hmem with ha | hb | hc2 <;>
          first
          | cases ha
          | exact hcs hb
          | simp at hc2

theorem retrieveViaProjectRetrieve_trace (mt cn oa : String)
    (fp : Option String) (w : PRWorld) :
    (retrieveViaProjectRetrieve mt cn oa fp w).2 =
      Ev.mkTmpRoot :: (prTryRun mt cn fp w).2 ++ [Ev.removeTmpDir] := by
  unfold retrieveViaProjectRetrieve
  cases h : (prTryRun mt cn fp w).1 <;> simp

theorem lbTryRun_no_remove (w : LBWorld) :
    Ev.removeTmpDir ∉ (lbTryRun w).2 := by
  unfold lbTryRun
  cases w.execOutcome with
  | error e => simp
  | ok u => cases w.filesOutcome <;> simp

/-- C8: both temp-directory-using operations
(`retrieveViaProjectRetrieve` and `listBundleFiles`) delete their fresh
temp directory exactly once, as the final action before returning or
throwing, on the success path and on every failure path alike. -/
theorem temp_dir_always_released (mt cn oa : String) (fp : Option String)
    (w : PRWorld) (wl : LBWorld) :
    ((retrieveViaProjectRetrieve mt cn oa fp w).2.getLast? =
        some Ev.removeTmpDir ∧
      (retrieveViaProjectRetrieve mt cn oa fp w).2.count Ev.removeTmpDir =
        1) ∧
    ((listBundleFiles wl).2.getLast? = some Ev.removeTmpDir ∧
      (listBundleFiles wl).2.count Ev.removeTmpDir = 1) := by
  constructor
  · rw [retrieveViaProjectRetrieve_trace]
    exact trace_shape _ (prTryRun_no_remove mt cn fp w)
  · rw [show (listBundleFiles wl).2 =
      Ev.mkTmpRoot :: (lbTryRun wl).2 ++ [Ev.removeTmpDir] from rfl]
    exact trace_shape _ (lbTryRun_no_remove wl)

/-- C10: a sub-file path containing `..` is rejected with "Invalid file
path" before any remote call or filesystem access happens — the event
trace of the invocation is empty. -/
theorem retrieveMetadataComponent_rejects_traversal
    (mt cn oa fp : String) (w : RMWorld)
    (h : strContains fp ".." = true) :
    retrieveMetadataComponent mt cn oa (some fp) w =
      (.error "Invalid file path", []) := by
  have hne : fp ≠ "" := by
    intro hfp
    rw [hfp] at h
    exact absurd h (by decide)
  unfold retrieveMetadataComponent
  rw [if_pos]
  simp [jsStrTruthy, hne, h]

/-- Witness for C10: the path "../secret" is rejected with no events. -/
theorem retrieveMetadataComponent_rejects_traversal_witness :
    (strContains "../secret" ".." = true) ∧
    retrieveMetadataComponent "ApexClass" "Foo" "orgA" (some "../secret")
        { toolingOutcome := Except.ok "x",
          pr := { execOutcome := Except.ok (), directReadOutcome := Except.ok "c",
                  componentFolder := none, folderReadOutcome := Except.ok "c",
                  foundFileContent := none } } =
      (.error "Invalid file path", []) :=
  ⟨by decide,
   retrieveMetadataComponent_rejects_traversal "ApexClass" "Foo" "orgA"
     "../secret" _ (by decide)⟩

end SfOrgDiff
